import Mathlib

/-!
Verification of the gh-hookmon webhook-delivery aggregation pipeline.

This file gives a shallow embedding of the parts of the program that the
specification's claims are about, and proves or refutes each claim against
that embedding.

Embedding conventions:
* Machine integers (`int` status codes, ids, the `--head` limit) are `Int`.
* `time.Time` instants are `Int` (UTC instants with `Before`/`After` as
  `<`/`>`; equal instants make both comparisons false, as in Go).
* The float field `Duration` of a delivery is omitted: no claim and no
  embedded operation reads it.
* Fallible operations return `Except String _`.
* Go's `sort.Slice` is modelled by its documented contract
  (`SortSliceRel` below): the output is a permutation of the input that is
  ordered by the supplied `less` function.  The Go documentation states
  explicitly that `sort.Slice` is NOT guaranteed to be stable ("equal
  elements may be reversed from their original order"), so the model keeps
  the order of equal-key elements nondeterministic.
* Go maps have an unspecified iteration order; where the program iterates
  over a map (`applyHeadLimit`), the embedding fixes the enumeration of
  keys to `List.dedup` of the scan order and the theorems proved about the
  result are invariant under that choice (they speak about per-key
  contents, lengths, and the re-sorted output, all of which depend only on
  the multiset produced by the concatenation).
* The two goroutine worker pools are modelled by a step relation
  (`PoolStep`) over an explicit pool state: a queue of pending items, one
  slot per worker, and a list of finished items.
-/

/-! ## String primitives (models of the Go standard library functions used) -/

/-- Model of a single-separator `strings.Split`: split the character list at
every occurrence of `sep`.  `splitOnCharAux sep cs acc` carries the current
(reversed) chunk in `acc`. -/
def splitOnCharAux (sep : Char) : List Char → List Char → List (List Char)
  | [], acc => [acc.reverse]
  | c :: rest, acc =>
    if c = sep then acc.reverse :: splitOnCharAux sep rest []
    else splitOnCharAux sep rest (c :: acc)

/-- Model of Go `strings.Split (s, sep)` for a one-character separator:
`splitOnChar ':' "a:b"` is `["a", "b"]`, and the empty string splits to
`[""]`, exactly as in Go. -/
def splitOnChar (sep : Char) (s : String) : List String :=
  (splitOnCharAux sep s.data []).map (fun l => String.mk l)

/-- Does `s` start with `lead`?  Helper for the substring test. -/
def startsWithChars : List Char → List Char → Bool
  | _, [] => true
  | [], _ :: _ => false
  | a :: s, b :: t => a = b && startsWithChars s t

/-- Substring occurrence test on character lists: true iff `sub` occurs
contiguously in `s` (the empty `sub` occurs in everything).  Model of Go
`strings.Contains`. -/
def containsChars : List Char → List Char → Bool
  | [], sub => sub.isEmpty
  | c :: rest, sub => startsWithChars (c :: rest) sub || containsChars rest sub

/-- Model of Go `strings.Contains (s, sub)`. -/
def goContains (s sub : String) : Bool :=
  containsChars s.data sub.data

/-- Model of Go `strings.ToLower` (character-wise lowering; the program only
ever feeds it URLs and user-supplied ASCII patterns). -/
def goToLower (s : String) : String :=
  String.mk (s.data.map Char.toLower)

/-- Lexicographic strict comparison of character lists by code point; for
valid UTF-8 this coincides with Go's byte-wise string order. -/
def charListLt : List Char → List Char → Bool
  | [], [] => false
  | [], _ :: _ => true
  | _ :: _, [] => false
  | a :: s, b :: t =>
    if a.toNat < b.toNat then true
    else if b.toNat < a.toNat then false
    else charListLt s t

/-- Model of Go `strings.Compare`: `-1`, `0` or `1` according to the
lexicographic order of the two strings. -/
def goStringCompare (a b : String) : Int :=
  if charListLt a.data b.data then -1 else if a = b then 0 else 1

/-! ## Data model (`internal/github`, `internal/config`) -/

/-- A webhook delivery record (struct `Delivery` in the `github` package).
`deliveredAt` is the UTC instant as an integer; the float `Duration` field
is omitted as unused. -/
structure Delivery where
  id : Int
  guid : String
  deliveredAt : Int
  redelivery : Bool
  status : String
  statusCode : Int
  event : String
  action : String
  url : String
  repository : String
  hookID : Int
deriving DecidableEq

/-- A webhook registration (struct `Hook` in the `github` package).
`configUrl` is the nested `Config.URL` field of the Go struct. -/
structure Hook where
  id : Int
  url : String
  active : Bool
  configUrl : String
deriving DecidableEq

/-- The application configuration (struct `Config` in `internal/config`).
`since`/`untl` hold the already-parsed optional UTC bounds (`untl` models
the Go field `Until`, renamed because `until` is reserved in Lean). -/
structure Config where
  org : String
  repo : String
  filter : String
  since : Option Int
  untl : Option Int
  jsonOutput : Bool
  failed : Bool
  head : Int
  sortBy : String
deriving DecidableEq

/-! ## Predicate filters (`internal/filter`) -/

/-- `filter.InRange`: the delivered time is kept unless it is strictly
before a present lower bound or strictly after a present upper bound. -/
def InRange (deliveredAt : Int) (since untl : Option Int) : Bool :=
  if (match since with | some s => decide (deliveredAt < s) | none => false) then false
  else if (match untl with | some u => decide (u < deliveredAt) | none => false) then false
  else true

/-- `filter.IsFailed`: status code `0` (no response) or any code `>= 400`. -/
def IsFailed (statusCode : Int) : Bool :=
  decide (statusCode = 0) || decide (400 ≤ statusCode)

/-- `filter.IsSuccessful`: status codes `200`..`399`. -/
def IsSuccessful (statusCode : Int) : Bool :=
  decide (200 ≤ statusCode) && decide (statusCode < 400)

/-- `filter.MatchesPattern`: case-insensitive substring match of `pattern`
against `url`; the empty pattern matches everything. -/
def MatchesPattern (url pattern : String) : Bool :=
  if pattern = "" then true
  else goContains (goToLower url) (goToLower pattern)

/-! ## Hook accessors (`github` package) -/

/-- `Hook.GetTargetURL`: the configured target URL when present, otherwise
the empty string. -/
def GetTargetURL (h : Hook) : String :=
  if h.configUrl ≠ "" then h.configUrl else ""

/-- `Hook.MatchesFilter`: case-insensitive substring match of the pattern
against the hook's configured target URL; the empty pattern matches. -/
def MatchesFilter (h : Hook) (pattern : String) : Bool :=
  if pattern = "" then true
  else goContains (goToLower (GetTargetURL h)) (goToLower pattern)

/-! ## Ordering policy (`github` package sort functions) -/

/-- Comparator closure of `SortDeliveriesByTime`: ascending compares with
`Before` (`<`), descending with `After` (`>`). -/
def lessByTime (ascending : Bool) (i j : Delivery) : Bool :=
  if ascending then decide (i.deliveredAt < j.deliveredAt)
  else decide (i.deliveredAt > j.deliveredAt)

/-- Comparator closure of `SortDeliveriesByRepository`: `strings.Compare`
on repository names, `< 0` for ascending and `> 0` for descending. -/
def lessByRepository (ascending : Bool) (i j : Delivery) : Bool :=
  if ascending then decide (goStringCompare i.repository j.repository < 0)
  else decide (goStringCompare i.repository j.repository > 0)

/-- Comparator closure of `SortDeliveriesByStatusCode`: plain integer
comparison of the status codes (the sentinel `0` is just the integer 0). -/
def lessByStatusCode (ascending : Bool) (i j : Delivery) : Bool :=
  if ascending then decide (i.statusCode < j.statusCode)
  else decide (i.statusCode > j.statusCode)

/-- Comparator closure of `SortDeliveriesByEvent`: `strings.Compare` on the
event types. -/
def lessByEvent (ascending : Bool) (i j : Delivery) : Bool :=
  if ascending then decide (goStringCompare i.event j.event < 0)
  else decide (goStringCompare i.event j.event > 0)

/-- The comparator selected by `ApplySort`'s switch on the sort field; an
unrecognized field falls back to timestamp descending. -/
def applySortLess (sortBy : String) (ascending : Bool) : Delivery → Delivery → Bool :=
  if sortBy = "repository" then lessByRepository ascending
  else if sortBy = "code" then lessByStatusCode ascending
  else if sortBy = "event" then lessByEvent ascending
  else if sortBy = "timestamp" then lessByTime ascending
  else lessByTime false

/-- A list is ordered by a `less` function when no later element is
strictly less than an earlier one (the postcondition of Go's sort). -/
def sortedBy (less : Delivery → Delivery → Bool) (l : List Delivery) : Prop :=
  List.Pairwise (fun a b => less b a = false) l

/-- Contract of Go `sort.Slice` with comparator `less`: the output is a
permutation of the input and is ordered by `less`.  Stability is
deliberately NOT part of the contract: the Go documentation states that
`sort.Slice` "is not guaranteed to be stable", so any sorted permutation is
a possible outcome. -/
def SortSliceRel (less : Delivery → Delivery → Bool) (input output : List Delivery) : Prop :=
  List.Perm input output ∧ sortedBy less output

/-- `github.ApplySort` as a relation between its input slice and the
possible output slices. -/
def ApplySortRel (sortBy : String) (ascending : Bool) (input output : List Delivery) : Prop :=
  SortSliceRel (applySortLess sortBy ascending) input output

instance (less : Delivery → Delivery → Bool) (l : List Delivery) :
    Decidable (sortedBy less l) := by
  unfold sortedBy
  infer_instance

instance (less : Delivery → Delivery → Bool) (input output : List Delivery) :
    Decidable (SortSliceRel less input output) := by
  unfold SortSliceRel
  exact instDecidableAnd

instance (sortBy : String) (ascending : Bool) (input output : List Delivery) :
    Decidable (ApplySortRel sortBy ascending input output) := by
  unfold ApplySortRel
  infer_instance

/-! ## Configuration (`internal/config/flags.go`) -/

/-- The `OWNER/REPO` format check inside `Config.Validate`: splitting on
`/` must give exactly two non-empty parts. -/
def repoFormatOk (repo : String) : Bool :=
  let parts := splitOnChar '/' repo
  decide (parts.length = 2) && decide (parts.headD "" ≠ "") && decide (parts.getD 1 "" ≠ "")

/-- The sort-flag checks of `Config.Validate` (reached only when the flag
is non-empty): at most two `:`-separated parts, a recognized field, and —
when an order is given — the token `asc` or `desc`. -/
def validateSort (sortBy : String) : Except String Unit :=
  let parts := splitOnChar ':' sortBy
  if parts.length > 2 then Except.error "--sort format should be field or field:order"
  else
    let field := parts.headD ""
    if field ∈ (["repository", "timestamp", "code", "event"] : List String) then
      if parts.length = 2 then
        let ord := parts.getD 1 ""
        if ord = "asc" ∨ ord = "desc" then Except.ok ()
        else Except.error "--sort order must be asc or desc"
      else Except.ok ()
    else Except.error "--sort field must be one of: repository, timestamp, code, event"

/-- `Config.Validate`, with the checks in source order: selector
exclusivity, `OWNER/REPO` format, date-range order, non-negative head
limit, and the sort flag. -/
def Validate (c : Config) : Except String Unit :=
  if c.org = "" ∧ c.repo = "" then Except.error "either --org or --repo must be specified"
  else if c.org ≠ "" ∧ c.repo ≠ "" then Except.error "cannot specify both --org and --repo"
  else if c.repo ≠ "" ∧ repoFormatOk c.repo = false then
    Except.error "--repo must be in format OWNER/REPO"
  else if (match c.since, c.untl with | some s, some u => decide (u < s) | _, _ => false) then
    Except.error "--since must be before --until"
  else if c.head < 0 then Except.error "--head must be a non-negative integer"
  else if c.sortBy ≠ "" then validateSort c.sortBy
  else Except.ok ()

/-- `Config.GetSortConfig`: the effective sort field and direction.  An
explicit `:asc`/`:desc` wins; otherwise alphabetical fields default to
ascending, the time and code fields to descending, and anything else to
timestamp descending. -/
def GetSortConfig (c : Config) : String × Bool :=
  if c.sortBy = "" then ("timestamp", false)
  else
    let parts := splitOnChar ':' c.sortBy
    let field := parts.headD ""
    if parts.length = 2 then (field, parts.getD 1 "" = "asc")
    else
      if field = "repository" ∨ field = "event" then (field, true)
      else if field = "timestamp" ∨ field = "code" then (field, false)
      else ("timestamp", false)

/-! ## The `run` pipeline stages (`cmd/root.go`) -/

/-- The date-range filtering loop of `run`: scan the deliveries and append
every record whose timestamp is in range. -/
def runDateFilter (ds : List Delivery) (since untl : Option Int) : List Delivery :=
  ds.foldl (fun acc d => if InRange d.deliveredAt since untl then acc ++ [d] else acc) []

/-- The `--failed` filtering loop of `run`: scan the deliveries and append
every record whose status code is a failure. -/
def runStatusFilter (ds : List Delivery) : List Delivery :=
  ds.foldl (fun acc d => if IsFailed d.statusCode then acc ++ [d] else acc) []

/-- The hook loop of `processRepository`: skip hooks that fail the URL
pre-filter, drop hooks whose delivery listing fails (with a warning), and
stamp every fetched delivery with the hook's target URL.  `fetch` stands
for `client.ListRepoHookDeliveries` for one hook. -/
def processRepoLoop (filt : String) (fetch : Hook → Except String (List Delivery)) :
    List Hook → List Delivery
  | [] => []
  | h :: rest =>
    if filt ≠ "" ∧ MatchesFilter h filt = false then processRepoLoop filt fetch rest
    else
      match fetch h with
      | Except.error _ => processRepoLoop filt fetch rest
      | Except.ok ds =>
        ds.map (fun d => { d with url := GetTargetURL h }) ++ processRepoLoop filt fetch rest

/-- The grouping and truncation part of `applyHeadLimit`, before the final
re-sort: partition the (already sorted) deliveries by repository name,
keep the first `limit` records of each group in their current order, and
concatenate the groups.  The enumeration order of the repository names
models the unspecified Go map iteration order; every property proved below
is invariant under it. -/
def applyHeadLimitPre (ds : List Delivery) (limit : Int) : List Delivery :=
  ((ds.map (fun d => d.repository)).dedup).foldr
    (fun r acc => (ds.filter (fun d => d.repository = r)).take limit.toNat ++ acc) []

/-- `applyHeadLimit` as a relation between its input and its possible
outputs: with a non-positive limit the input passes through unchanged;
otherwise the truncated groups are concatenated and re-sorted with the
configured comparator. -/
def applyHeadLimitRel (ds : List Delivery) (limit : Int) (sortBy : String) (ascending : Bool)
    (out : List Delivery) : Prop :=
  if limit ≤ 0 then out = ds
  else SortSliceRel (applySortLess sortBy ascending) (applyHeadLimitPre ds limit) out

/-- The validation gate of `run`: the configuration is validated before the
GitHub client is created and before any fetch work starts; `work` stands
for everything that follows validation. -/
def runModel {α : Type} (c : Config) (work : Config → Except String α) : Except String α :=
  match Validate c with
  | Except.error e => Except.error ("validation error: " ++ e)
  | Except.ok _ => work c

/-- The worker-count computation shared by `processOrganization`
(`maxConcurrent = 10`) and `fetchDeliveryDetails` (`maxConcurrent = 5`):
the cap, sized down to the item count when there are fewer items. -/
def numWorkersGo (maxConcurrent n : Nat) : Nat :=
  if n < maxConcurrent then n else maxConcurrent

/-- The discovery pool cap (`const maxConcurrent` in `processOrganization`). -/
def discoveryMaxConcurrent : Nat := 10

/-- The enrichment pool cap (`const maxConcurrent` in `fetchDeliveryDetails`). -/
def enrichMaxConcurrent : Nat := 5

/-! ## The bounded worker pool as a transition system

Both pools have the same shape: `numWorkers` goroutines each repeatedly
take one item from the jobs channel, process it, and emit exactly one
outcome; the collector loops until it has received one outcome per
submitted item.  The state records the jobs not yet taken, the item each
worker currently holds (`none` = idle), and the items already finished.
An interleaving step either hands the next pending item to an idle worker
or completes a busy worker's item. -/

structure PoolState (ι : Type) where
  pending : List ι
  workers : List (Option ι)
  done : List ι

/-- The initial pool state: all items pending, `w` idle workers, nothing
finished. -/
def initState {ι : Type} (w : Nat) (items : List ι) : PoolState ι :=
  ⟨items, List.replicate w none, []⟩

/-- One scheduler step of the pool. -/
inductive PoolStep {ι : Type} : PoolState ι → PoolState ι → Prop where
  | take : ∀ (x : ι) (p : List ι) (ws : List (Option ι)) (d : List ι) (w : Nat),
      ws[w]? = some none →
      PoolStep ⟨x :: p, ws, d⟩ ⟨p, ws.set w (some x), d⟩
  | finish : ∀ (p : List ι) (ws : List (Option ι)) (d : List ι) (w : Nat) (x : ι),
      ws[w]? = some (some x) →
      PoolStep ⟨p, ws, d⟩ ⟨p, ws.set w none, x :: d⟩

/-- The states a pool with `w` workers over `items` can reach. -/
def Reachable {ι : Type} (w : Nat) (items : List ι) (s : PoolState ι) : Prop :=
  Relation.ReflTransGen PoolStep (initState w items) s

/-- The number of fetches in flight: workers currently holding an item. -/
def busyCount {ι : Type} (s : PoolState ι) : Nat :=
  s.workers.countP (fun o => o.isSome)

/-- Did the fetch succeed?  Partitions outcomes into successes and
failures. -/
def isOkB {ε α : Type} : Except ε α → Bool
  | Except.ok _ => true
  | Except.error _ => false

/-! ## Helper lemmas -/

/-- The append-to-accumulator filtering loops of `run` compute `filter`. -/
theorem foldl_append_filter (p : Delivery → Bool) (l : List Delivery) (acc : List Delivery) :
    l.foldl (fun a d => if p d then a ++ [d] else a) acc = acc ++ l.filter p := by
  induction l generalizing acc with
  | nil => simp
  | cons d rest ih =>
    by_cases h : p d
    · simp [List.filter_cons, h, ih]
    · simp [List.filter_cons, h, ih]

/-! ## Claims -/

/-- C5: when the failed-only filter is enabled a delivery is kept iff its
status code is `0` or at least `400`, and the filtered result is exactly
the sublist of deliveries satisfying that condition. -/
theorem failed_filter_keeps_exactly_failures :
    (∀ code : Int, IsFailed code = true ↔ (code = 0 ∨ 400 ≤ code))
    ∧ (∀ ds : List Delivery, runStatusFilter ds = ds.filter (fun d => IsFailed d.statusCode))
    ∧ (∀ ds : List Delivery, (runStatusFilter ds).Sublist ds)
    ∧ (∀ (ds : List Delivery) (d : Delivery),
        d ∈ runStatusFilter ds ↔ d ∈ ds ∧ (d.statusCode = 0 ∨ 400 ≤ d.statusCode)) := by
  have hfilter : ∀ ds : List Delivery,
      runStatusFilter ds = ds.filter (fun d => IsFailed d.statusCode) := by
    intro ds
    have := foldl_append_filter (fun d => IsFailed d.statusCode) ds []
    simpa [runStatusFilter] using this
  refine ⟨?_, hfilter, ?_, ?_⟩
  · intro code
    simp [IsFailed]
  · intro ds
    rw [hfilter]
    exact List.filter_sublist ds
  · intro ds d
    rw [hfilter]
    simp [List.mem_filter, IsFailed]

/-- C7: the time-range predicate keeps a delivery iff its timestamp is not
before a present lower bound and not after a present upper bound; absent
bounds are unbounded, both bounds are inclusive, and the filtering loop of
`run` keeps exactly the in-range records. -/
theorem in_range_inclusive_bounds :
    (∀ (t : Int) (s u : Option Int),
        InRange t s u = true ↔ ((∀ lb, s = some lb → lb ≤ t) ∧ (∀ ub, u = some ub → t ≤ ub)))
    ∧ (∀ t : Int, InRange t none none = true)
    ∧ (∀ b : Int, InRange b (some b) (some b) = true)
    ∧ (∀ (lb ub t : Int), lb ≤ t → t ≤ ub → InRange t (some lb) (some ub) = true)
    ∧ (∀ (ds : List Delivery) (s u : Option Int),
        runDateFilter ds s u = ds.filter (fun d => InRange d.deliveredAt s u)) := by
  have hmain : ∀ (t : Int) (s u : Option Int),
      InRange t s u = true ↔ ((∀ lb, s = some lb → lb ≤ t) ∧ (∀ ub, u = some ub → t ≤ ub)) := by
    intro t s u
    cases s with
    | none =>
      cases u with
      | none => simp [InRange]
      | some ub =>
        simp only [InRange]
        constructor
        · intro h
          refine ⟨by simp, ?_⟩
          intro ub' hub'
          cases hub'
          by_contra hlt
          simp [show (ub < t) from by omega] at h
        · rintro ⟨-, h2⟩
          have := h2 ub rfl
          simp [show ¬ (ub < t) from by omega]
    | some lb =>
      cases u with
      | none =>
        simp only [InRange]
        constructor
        · intro h
          refine ⟨?_, by simp⟩
          intro lb' hlb'
          cases hlb'
          by_contra hlt
          simp [show (t < lb) from by omega] at h
        · rintro ⟨h1, -⟩
          have := h1 lb rfl
          simp [show ¬ (t < lb) from by omega]
      | some ub =>
        simp only [InRange]
        constructor
        · intro h
          by_cases h1 : t < lb
          · simp [h1] at h
          · by_cases h2 : ub < t
            · simp [h1, h2] at h
            · exact ⟨fun lb' hlb' => by cases hlb'; omega,
                fun ub' hub' => by cases hub'; omega⟩
        · rintro ⟨h1, h2⟩
          have hl := h1 lb rfl
          have hu := h2 ub rfl
          simp [show ¬ (t < lb) from by omega, show ¬ (ub < t) from by omega]
  refine ⟨hmain, ?_, ?_, ?_, ?_⟩
  · intro t
    simp [InRange]
  · intro b
    exact (hmain b (some b) (some b)).2 ⟨fun lb h => by cases h; omega, fun ub h => by cases h; omega⟩
  · intro lb ub t h1 h2
    exact (hmain t (some lb) (some ub)).2 ⟨fun lb' h => by cases h; omega, fun ub' h => by cases h; omega⟩
  · intro ds s u
    have := foldl_append_filter (fun d => InRange d.deliveredAt s u) ds []
    simpa [runDateFilter] using this

/-- A concrete delivery used by the witnesses below. -/
def sampleDelivery : Delivery :=
  ⟨1, "g1", 0, false, "OK", 200, "push", "", "", "a/x", 1⟩

/-- C4: under status-code sort the sentinel `0` compares as the integer 0:
in every ascending-sorted output each code-0 record is positioned before
each positive-code record, and in every descending-sorted output after
it. -/
theorem sentinel_zero_sorts_as_zero :
    (∀ (ds out : List Delivery), SortSliceRel (lessByStatusCode true) ds out →
      ∀ (i j : Nat) (hi : i < out.length) (hj : j < out.length),
        (out[i]).statusCode = 0 → 0 < (out[j]).statusCode → i < j)
    ∧ (∀ (ds out : List Delivery), SortSliceRel (lessByStatusCode false) ds out →
      ∀ (i j : Nat) (hi : i < out.length) (hj : j < out.length),
        (out[i]).statusCode = 0 → 0 < (out[j]).statusCode → j < i) := by
  constructor
  · intro ds out hrel i j hi hj hz hp
    have hpair := List.pairwise_iff_getElem.1 hrel.2
    rcases Nat.lt_trichotomy i j with hij | hij | hij
    · exact hij
    · subst hij
      omega
    · have := hpair j i hj hi hij
      simp [lessByStatusCode] at this
      omega
  · intro ds out hrel i j hi hj hz hp
    have hpair := List.pairwise_iff_getElem.1 hrel.2
    rcases Nat.lt_trichotomy j i with hij | hij | hij
    · exact hij
    · subst hij
      omega
    · have := hpair i j hi hj hij
      simp [lessByStatusCode] at this
      omega

/-- Witness for C4 at a concrete sorted output: code 0 sits at index 0 and
code 200 at index 1 ascending, and the other way round descending. -/
theorem sentinel_zero_sorts_as_zero_witness : (0 : Nat) < 1 ∧ (0 : Nat) < 1 := by
  constructor
  · exact sentinel_zero_sorts_as_zero.1
      [{ sampleDelivery with statusCode := 0 }, sampleDelivery]
      [{ sampleDelivery with statusCode := 0 }, sampleDelivery]
      (by constructor
          · decide
          · decide)
      0 1 (by decide) (by decide) (by decide) (by decide)
  · exact sentinel_zero_sorts_as_zero.2
      [sampleDelivery, { sampleDelivery with statusCode := 0 }]
      [sampleDelivery, { sampleDelivery with statusCode := 0 }]
      (by constructor
          · decide
          · decide)
      1 0 (by decide) (by decide) (by decide) (by decide)

/-- C6: a sort field without an explicit direction defaults per field
(repository and event ascending, timestamp and code descending); an empty
sort flag means timestamp descending, and a field unrecognized by the
sorter falls back to timestamp descending. -/
theorem sort_direction_defaults :
    (∀ (o r f : String) (s u : Option Int) (j fl : Bool) (hd : Int),
        GetSortConfig ⟨o, r, f, s, u, j, fl, hd, "repository"⟩ = ("repository", true))
    ∧ (∀ (o r f : String) (s u : Option Int) (j fl : Bool) (hd : Int),
        GetSortConfig ⟨o, r, f, s, u, j, fl, hd, "event"⟩ = ("event", true))
    ∧ (∀ (o r f : String) (s u : Option Int) (j fl : Bool) (hd : Int),
        GetSortConfig ⟨o, r, f, s, u, j, fl, hd, "timestamp"⟩ = ("timestamp", false))
    ∧ (∀ (o r f : String) (s u : Option Int) (j fl : Bool) (hd : Int),
        GetSortConfig ⟨o, r, f, s, u, j, fl, hd, "code"⟩ = ("code", false))
    ∧ (∀ (o r f : String) (s u : Option Int) (j fl : Bool) (hd : Int),
        GetSortConfig ⟨o, r, f, s, u, j, fl, hd, ""⟩ = ("timestamp", false))
    ∧ (∀ (sortBy : String) (asc : Bool) (ds out : List Delivery),
        sortBy ≠ "repository" → sortBy ≠ "code" → sortBy ≠ "event" → sortBy ≠ "timestamp" →
        (ApplySortRel sortBy asc ds out ↔ SortSliceRel (lessByTime false) ds out)) := by
  refine ⟨?_, ?_, ?_, ?_, ?_, ?_⟩
  · intro o r f s u j fl hd
    rfl
  · intro o r f s u j fl hd
    rfl
  · intro o r f s u j fl hd
    rfl
  · intro o r f s u j fl hd
    rfl
  · intro o r f s u j fl hd
    rfl
  · intro sortBy asc ds out h1 h2 h3 h4
    simp [ApplySortRel, applySortLess, h1, h2, h3, h4]

/-- Witness for C6: a concrete configuration with field `repository` and no
explicit direction, and a concrete unrecognized field. -/
theorem sort_direction_defaults_witness :
    GetSortConfig ⟨"myorg", "", "", none, none, false, false, 0, "repository"⟩
        = ("repository", true)
    ∧ (ApplySortRel "bogus" true [] [] ↔ SortSliceRel (lessByTime false) [] []) := by
  constructor
  · exact sort_direction_defaults.1 "myorg" "" "" none none false false 0
  · exact sort_direction_defaults.2.2.2.2.2 "bogus" true [] []
      (by decide) (by decide) (by decide) (by decide)

/-- C10: with a non-empty URL filter pattern, a hook whose configured
target URL is empty never passes the discovery pre-filter, so the hook is
skipped entirely and none of its deliveries reach the output of
`processRepository`. -/
theorem empty_target_url_hook_skipped :
    ∀ (filt : String) (fetch : Hook → Except String (List Delivery)) (h : Hook)
      (rest : List Hook),
      filt ≠ "" → h.configUrl = "" →
      MatchesFilter h filt = false
      ∧ processRepoLoop filt fetch (h :: rest) = processRepoLoop filt fetch rest := by
  intro filt fetch h rest hfilt hcfg
  have htarget : GetTargetURL h = "" := by
    simp [GetTargetURL, hcfg]
  have hdata : (goToLower filt).data ≠ [] := by
    cases filt with
    | mk l =>
      cases l with
      | nil => exact absurd rfl hfilt
      | cons c cs => simp [goToLower]
  have hm : MatchesFilter h filt = false := by
    rw [MatchesFilter, if_neg hfilt, htarget]
    show containsChars (goToLower "").data (goToLower filt).data = false
    have : (goToLower "").data = [] := rfl
    rw [this]
    show (goToLower filt).data.isEmpty = false
    cases hcase : (goToLower filt).data with
    | nil => exact absurd hcase hdata
    | cons c cs => rfl
  refine ⟨hm, ?_⟩
  rw [processRepoLoop, if_pos ⟨hfilt, hm⟩]

/-- Witness for C10: a concrete hook with an empty configured URL and the
non-empty pattern `x`. -/
theorem empty_target_url_hook_skipped_witness :
    MatchesFilter ⟨7, "https://api.github.com/repos/a/x/hooks/7", true, ""⟩ "x" = false
    ∧ processRepoLoop "x" (fun _ => Except.ok [sampleDelivery])
        [⟨7, "https://api.github.com/repos/a/x/hooks/7", true, ""⟩]
      = processRepoLoop "x" (fun _ => Except.ok [sampleDelivery]) [] :=
  empty_target_url_hook_skipped "x" (fun _ => Except.ok [sampleDelivery])
    ⟨7, "https://api.github.com/repos/a/x/hooks/7", true, ""⟩ [] (by decide) rfl

/-- The sort field named by a sort flag: the part before the first `:`. -/
def sortFieldOf (s : String) : String :=
  (splitOnChar ':' s).headD ""

/-- The sort order token of a sort flag: the part after the `:`. -/
def sortOrderOf (s : String) : String :=
  (splitOnChar ':' s).getD 1 ""

/-- The configuration defects listed by the claim: both or neither
selector set, a negative per-group limit, an unrecognized sort field, or a
sort-order token other than `asc`/`desc`. -/
def configDefect (c : Config) : Prop :=
  (c.org = "" ∧ c.repo = "")
  ∨ (c.org ≠ "" ∧ c.repo ≠ "")
  ∨ c.head < 0
  ∨ (c.sortBy ≠ "" ∧
      sortFieldOf c.sortBy ∉ (["repository", "timestamp", "code", "event"] : List String))
  ∨ (c.sortBy ≠ "" ∧ (splitOnChar ':' c.sortBy).length = 2 ∧
      sortOrderOf c.sortBy ∉ (["asc", "desc"] : List String))

instance (c : Config) : Decidable (configDefect c) := by
  unfold configDefect
  infer_instance

/-- C8: `Validate` rejects every configuration carrying one of the listed
defects, the pipeline then stops before any fetch work (for every possible
fetch continuation the run returns the validation error), and a
configuration that passes validation has none of the defects. -/
theorem validation_rejects_defects :
    ∀ c : Config,
      (Validate c = Except.ok () → ¬ configDefect c)
      ∧ (configDefect c → ∃ e, Validate c = Except.error e)
      ∧ (configDefect c → ∀ (α : Type) (work : Config → Except String α),
          ∃ e, runModel c work = Except.error e) := by
  intro c
  have hok : Validate c = Except.ok () → ¬ configDefect c := by
    intro hv hdef
    unfold Validate at hv
    split_ifs at hv with h1 h2 h3 h4 h5 h6
    · -- sortBy nonempty: the sort checks ran and succeeded
      simp only [validateSort] at hv
      split_ifs at hv with b1 b2 b3 b4
      · rcases hdef with d | d | d | d | d
        · exact h1 d
        · exact h2 d
        · exact absurd d (by omega)
        · exact d.2 b2
        · rcases d.2.2 (by simpa [sortOrderOf] using b4.imp id id)
      · rcases hdef with d | d | d | d | d
        · exact h1 d
        · exact h2 d
        · exact absurd d (by omega)
        · exact d.2 b2
        · exact absurd d.2.1 b3
    · -- sortBy empty: no sort flag was given
      rcases hdef with d | d | d | d | d
      · exact h1 d
      · exact h2 d
      · exact absurd d (by omega)
      · exact h6 d.1
      · exact h6 d.1
  refine ⟨hok, ?_, ?_⟩
  · intro hdef
    cases hv : Validate c with
    | error e => exact ⟨e, rfl⟩
    | ok u =>
      cases u
      exact absurd hdef (hok hv)
  · intro hdef α work
    cases hv : Validate c with
    | error e => exact ⟨"validation error: " ++ e, by simp [runModel, hv]⟩
    | ok u =>
      cases u
      exact absurd hdef (hok hv)

/-- Witness for C8: the configuration with neither selector set is
rejected by `Validate`, for instance. -/
theorem validation_rejects_defects_witness :
    ∃ e, Validate ⟨"", "", "", none, none, false, false, 0, ""⟩ = Except.error e :=
  (validation_rejects_defects ⟨"", "", "", none, none, false, false, 0, ""⟩).2.1
    (Or.inl ⟨rfl, rfl⟩)


/-! ## Sort-comparator theory -/

theorem charToNat_inj (a b : Char) (h : a.toNat = b.toNat) : a = b := by
  apply Char.eq_of_val_eq
  apply UInt32.eq_of_val_eq
  apply Fin.ext
  exact h

theorem stringDataEq (a b : String) (h : a.data = b.data) : a = b := by
  cases a
  cases b
  simp only at h
  rw [h]

theorem charListLt_asymm : ∀ s t : List Char, charListLt s t = true → charListLt t s = false := by
  intro s
  induction s with
  | nil =>
    intro t h
    cases t with
    | nil => simp [charListLt] at h
    | cons b bt => rfl
  | cons a as ih =>
    intro t h
    cases t with
    | nil => simp [charListLt] at h
    | cons b bt =>
      by_cases h1 : a.toNat < b.toNat
      · simp [charListLt, h1, show ¬ b.toNat < a.toNat from by omega]
      · by_cases h2 : b.toNat < a.toNat
        · simp [charListLt, h1, h2] at h
        · simp only [charListLt, if_neg h1, if_neg h2] at h
          simp only [charListLt, if_neg h2, if_neg h1]
          exact ih bt h

theorem charListLt_conn : ∀ s t : List Char,
    charListLt s t = false → charListLt t s = false → s = t := by
  intro s
  induction s with
  | nil =>
    intro t h1 h2
    cases t with
    | nil => rfl
    | cons b bt => simp [charListLt] at h1
  | cons a as ih =>
    intro t h1 h2
    cases t with
    | nil => simp [charListLt] at h2
    | cons b bt =>
      by_cases hab : a.toNat < b.toNat
      · simp [charListLt, hab] at h1
      · by_cases hba : b.toNat < a.toNat
        · simp [charListLt, hba] at h2
        · have hk : a = b := charToNat_inj a b (by omega)
          subst hk
          simp only [charListLt, if_neg hab, if_neg hba] at h1 h2
          rw [ih bt h1 h2]

theorem charListLt_irrefl (s : List Char) : charListLt s s = false := by
  cases h : charListLt s s
  · rfl
  · have := charListLt_asymm s s h
    rw [h] at this
    cases this

/-- All four comparators are strict key comparisons through a Bool-valued
strict order on the key: ascending orders by increasing key, descending by
decreasing key. -/
def keyedLessB {κ : Type} (ltK : κ → κ → Bool) (key : Delivery → κ) (ascending : Bool)
    (i j : Delivery) : Bool :=
  if ascending then ltK (key i) (key j) else ltK (key j) (key i)

/-- Strict order on integer keys. -/
def intLtB (x y : Int) : Bool := decide (x < y)

/-- Strict order on string keys: the order computed by `strings.Compare`. -/
def strLtB (a b : String) : Bool := charListLt a.data b.data

theorem intLtB_asymm (x y : Int) : intLtB x y = true → intLtB y x = false := by
  simp [intLtB]
  omega

theorem intLtB_conn (x y : Int) : intLtB x y = false → intLtB y x = false → x = y := by
  simp [intLtB]
  omega

theorem strLtB_asymm (x y : String) : strLtB x y = true → strLtB y x = false :=
  charListLt_asymm x.data y.data

theorem strLtB_conn (x y : String) : strLtB x y = false → strLtB y x = false → x = y := by
  intro h1 h2
  exact stringDataEq x y (charListLt_conn x.data y.data h1 h2)

theorem decide_goStringCompare_neg (a b : String) :
    decide (goStringCompare a b < 0) = charListLt a.data b.data := by
  unfold goStringCompare
  cases hc : charListLt a.data b.data
  · simp only [hc, Bool.false_eq_true, if_false]
    split_ifs <;> rfl
  · simp [hc]

theorem decide_goStringCompare_pos (a b : String) :
    decide (goStringCompare a b > 0) = charListLt b.data a.data := by
  unfold goStringCompare
  cases hc : charListLt a.data b.data
  · simp only [hc, Bool.false_eq_true, if_false]
    split_ifs with he
    · subst he
      rw [charListLt_irrefl]
      rfl
    · cases hg : charListLt b.data a.data
      · exact absurd (stringDataEq a b (charListLt_conn a.data b.data hc hg)) he
      · rfl
  · simp only [hc, if_true]
    rw [charListLt_asymm a.data b.data hc]
    rfl

theorem lessByTime_eq_keyed (asc : Bool) :
    lessByTime asc = keyedLessB intLtB (fun d => d.deliveredAt) asc := by
  funext i j
  cases asc <;> rfl

theorem lessByStatusCode_eq_keyed (asc : Bool) :
    lessByStatusCode asc = keyedLessB intLtB (fun d => d.statusCode) asc := by
  funext i j
  cases asc <;> rfl

theorem lessByRepository_eq_keyed (asc : Bool) :
    lessByRepository asc = keyedLessB strLtB (fun d => d.repository) asc := by
  funext i j
  cases asc with
  | false =>
    show decide (goStringCompare i.repository j.repository > 0) = _
    exact decide_goStringCompare_pos _ _
  | true =>
    show decide (goStringCompare i.repository j.repository < 0) = _
    exact decide_goStringCompare_neg _ _

theorem lessByEvent_eq_keyed (asc : Bool) :
    lessByEvent asc = keyedLessB strLtB (fun d => d.event) asc := by
  funext i j
  cases asc with
  | false =>
    show decide (goStringCompare i.event j.event > 0) = _
    exact decide_goStringCompare_pos _ _
  | true =>
    show decide (goStringCompare i.event j.event < 0) = _
    exact decide_goStringCompare_neg _ _

/-- A sorted permutation of a strictly sorted list (pairwise strictly
ordered keys, hence no duplicate keys) is that list itself: under
pairwise-distinct keys the contract of `sort.Slice` pins the output down
uniquely. -/
theorem sortSliceRel_eq_of_strict {κ : Type} (ltK : κ → κ → Bool) (key : Delivery → κ)
    (hasymK : ∀ x y, ltK x y = true → ltK y x = false)
    (hconnK : ∀ x y, ltK x y = false → ltK y x = false → x = y)
    (asc : Bool) (ds out : List Delivery)
    (hst : List.Pairwise (fun a b => keyedLessB ltK key asc a b = true) ds)
    (hrel : SortSliceRel (keyedLessB ltK key asc) ds out) : out = ds := by
  obtain ⟨hperm, hsort⟩ := hrel
  have hsort2 : List.Pairwise (fun a b => keyedLessB ltK key asc b a = false) out := hsort
  have antisym : ∀ a b : Delivery,
      keyedLessB ltK key asc a b = true → keyedLessB ltK key asc b a = true → a = b := by
    intro a b hab hba
    cases asc <;> simp [keyedLessB] at hab hba <;>
      · have := hasymK _ _ hab
        rw [hba] at this
        cases this
  have hne : List.Pairwise (fun a b : Delivery => key a ≠ key b) ds := by
    refine hst.imp ?_
    intro a b h hkeq
    cases asc <;> simp [keyedLessB] at h
    · rw [hkeq] at h
      have h2 := hasymK _ _ h
      rw [h] at h2
      cases h2
    · rw [hkeq] at h
      have h2 := hasymK _ _ h
      rw [h] at h2
      cases h2
  have hne' : List.Pairwise (fun a b : Delivery => key a ≠ key b) out :=
    (List.Perm.pairwise_iff (fun hxy => hxy.symm) hperm).1 hne
  have hstrictOut : List.Pairwise (fun a b => keyedLessB ltK key asc a b = true) out := by
    refine (hsort2.and hne').imp ?_
    rintro a b ⟨hfalse, hkne⟩
    cases asc <;> simp only [keyedLessB, Bool.false_eq_true, if_false, if_true] at hfalse ⊢
    · cases hgoal : ltK (key b) (key a)
      · exact absurd (hconnK _ _ hfalse hgoal) hkne
      · rfl
    · cases hgoal : ltK (key a) (key b)
      · exact absurd (hconnK _ _ hfalse hgoal).symm hkne
      · rfl
  haveI : IsAntisymm Delivery (fun a b => keyedLessB ltK key asc a b = true) := ⟨antisym⟩
  exact List.eq_of_perm_of_sorted hperm.symm hstrictOut hst

/-- First element of the stability counterexample: all four sort keys of
`cxSecond` coincide with this record, but the records differ (distinct
delivery ids). -/
def cxFirst : Delivery := sampleDelivery

/-- Second element of the stability counterexample. -/
def cxSecond : Delivery := { sampleDelivery with id := 2, guid := "g2" }

/-- C1 (counterexample): `sort.Slice` is documented as unstable, so its
contract admits, for a two-element list that is already sorted by each of
the four fields and holds two equal-key records, an output that swaps the
equal-key records: re-sorting need not return the identical sequence, and
elements with equal keys are not guaranteed to keep their relative
order. -/
theorem sort_not_stable_counterexample :
    sortedBy (applySortLess "code" true) [cxFirst, cxSecond]
    ∧ ApplySortRel "code" true [cxFirst, cxSecond] [cxSecond, cxFirst]
    ∧ sortedBy (applySortLess "repository" true) [cxFirst, cxSecond]
    ∧ ApplySortRel "repository" true [cxFirst, cxSecond] [cxSecond, cxFirst]
    ∧ sortedBy (applySortLess "timestamp" false) [cxFirst, cxSecond]
    ∧ ApplySortRel "timestamp" false [cxFirst, cxSecond] [cxSecond, cxFirst]
    ∧ sortedBy (applySortLess "event" true) [cxFirst, cxSecond]
    ∧ ApplySortRel "event" true [cxFirst, cxSecond] [cxSecond, cxFirst]
    ∧ [cxSecond, cxFirst] ≠ [cxFirst, cxSecond] := by
  decide

/-- C1 (amended): when the already-sorted list is strictly sorted by the
chosen field — pairwise-distinct sort keys — re-sorting by the same field
and direction yields the identical sequence, for each of the four
recognized fields and both directions; with duplicate keys the relative
order of equal-key elements is not guaranteed, since the underlying
`sort.Slice` is not stable. -/
theorem sort_idempotent_on_distinct_keys :
    (∀ (asc : Bool) (ds out : List Delivery),
        List.Pairwise (fun a b => applySortLess "repository" asc a b = true) ds →
        ApplySortRel "repository" asc ds out → out = ds)
    ∧ (∀ (asc : Bool) (ds out : List Delivery),
        List.Pairwise (fun a b => applySortLess "timestamp" asc a b = true) ds →
        ApplySortRel "timestamp" asc ds out → out = ds)
    ∧ (∀ (asc : Bool) (ds out : List Delivery),
        List.Pairwise (fun a b => applySortLess "code" asc a b = true) ds →
        ApplySortRel "code" asc ds out → out = ds)
    ∧ (∀ (asc : Bool) (ds out : List Delivery),
        List.Pairwise (fun a b => applySortLess "event" asc a b = true) ds →
        ApplySortRel "event" asc ds out → out = ds) := by
  have hrep : ∀ asc : Bool,
      applySortLess "repository" asc = keyedLessB strLtB (fun d => d.repository) asc := by
    intro asc
    show lessByRepository asc = _
    exact lessByRepository_eq_keyed asc
  have htime : ∀ asc : Bool,
      applySortLess "timestamp" asc = keyedLessB intLtB (fun d => d.deliveredAt) asc := by
    intro asc
    show lessByTime asc = _
    exact lessByTime_eq_keyed asc
  have hcode : ∀ asc : Bool,
      applySortLess "code" asc = keyedLessB intLtB (fun d => d.statusCode) asc := by
    intro asc
    show lessByStatusCode asc = _
    exact lessByStatusCode_eq_keyed asc
  have hevent : ∀ asc : Bool,
      applySortLess "event" asc = keyedLessB strLtB (fun d => d.event) asc := by
    intro asc
    show lessByEvent asc = _
    exact lessByEvent_eq_keyed asc
  refine ⟨?_, ?_, ?_, ?_⟩
  · intro asc ds out hst hrel
    rw [hrep asc] at hst
    exact sortSliceRel_eq_of_strict strLtB (fun d => d.repository) strLtB_asymm strLtB_conn
      asc ds out hst (by rw [ApplySortRel, hrep asc] at hrel; exact hrel)
  · intro asc ds out hst hrel
    rw [htime asc] at hst
    exact sortSliceRel_eq_of_strict intLtB (fun d => d.deliveredAt) intLtB_asymm intLtB_conn
      asc ds out hst (by rw [ApplySortRel, htime asc] at hrel; exact hrel)
  · intro asc ds out hst hrel
    rw [hcode asc] at hst
    exact sortSliceRel_eq_of_strict intLtB (fun d => d.statusCode) intLtB_asymm intLtB_conn
      asc ds out hst (by rw [ApplySortRel, hcode asc] at hrel; exact hrel)
  · intro asc ds out hst hrel
    rw [hevent asc] at hst
    exact sortSliceRel_eq_of_strict strLtB (fun d => d.event) strLtB_asymm strLtB_conn
      asc ds out hst (by rw [ApplySortRel, hevent asc] at hrel; exact hrel)

/-- Witness for the amended C1: a concrete strictly code-sorted pair is
returned identically by every contract-conforming re-sort. -/
theorem sort_idempotent_on_distinct_keys_witness :
    ([{ sampleDelivery with statusCode := 100 }, sampleDelivery] : List Delivery)
      = [{ sampleDelivery with statusCode := 100 }, sampleDelivery] :=
  sort_idempotent_on_distinct_keys.2.2.1 true
    [{ sampleDelivery with statusCode := 100 }, sampleDelivery]
    [{ sampleDelivery with statusCode := 100 }, sampleDelivery]
    (by decide) (by decide)

/-! ## The per-group head limiter -/

theorem filter_repo_of_all (l : List Delivery) (k r : String)
    (hall : ∀ d ∈ l, d.repository = k) :
    l.filter (fun d => d.repository = r) = if r = k then l else [] := by
  by_cases hr : r = k
  · subst hr
    rw [if_pos rfl]
    exact List.filter_eq_self.mpr (fun d hd => by simp [hall d hd])
  · rw [if_neg hr]
    exact List.filter_eq_nil_iff.mpr (fun d hd => by simp [hall d hd, Ne.symm hr])

theorem filter_foldr_groups (ds : List Delivery) (n : Nat) (r : String) :
    ∀ keys : List String, keys.Nodup →
      (keys.foldr (fun k acc => (ds.filter (fun d => d.repository = k)).take n ++ acc)
          []).filter (fun d => d.repository = r)
        = if r ∈ keys then (ds.filter (fun d => d.repository = r)).take n else [] := by
  intro keys hnd
  induction keys with
  | nil => simp
  | cons k ks ih =>
    obtain ⟨hk, hks⟩ := List.nodup_cons.mp hnd
    rw [List.foldr_cons, List.filter_append]
    have hgroup : ∀ d ∈ (ds.filter (fun d => d.repository = k)).take n, d.repository = k := by
      intro d hd
      have hmem := List.take_subset n _ hd
      have := (List.mem_filter.mp hmem).2
      simpa using this
    rw [filter_repo_of_all _ k r hgroup, ih hks]
    by_cases hr : r = k
    · subst hr
      simp [hk]
    · by_cases hm : r ∈ ks <;> simp [hr, hm]

theorem applyHeadLimitPre_filter (ds : List Delivery) (limit : Int) (r : String) :
    (applyHeadLimitPre ds limit).filter (fun d => d.repository = r)
      = (ds.filter (fun d => d.repository = r)).take limit.toNat := by
  unfold applyHeadLimitPre
  rw [filter_foldr_groups ds limit.toNat r _ (List.nodup_dedup _)]
  by_cases hm : r ∈ (ds.map (fun d => d.repository)).dedup
  · rw [if_pos hm]
  · rw [if_neg hm]
    have hnil : ds.filter (fun d => d.repository = r) = [] := by
      refine List.filter_eq_nil_iff.mpr ?_
      intro d hd
      simp only [decide_eq_true_eq]
      intro heq
      exact hm (List.mem_dedup.mpr (List.mem_map.mpr ⟨d, hd, heq⟩))
    rw [hnil]
    simp

instance (ds : List Delivery) (limit : Int) (sortBy : String) (asc : Bool)
    (out : List Delivery) : Decidable (applyHeadLimitRel ds limit sortBy asc out) := by
  unfold applyHeadLimitRel
  infer_instance

/-- C3: for a pre-sorted delivery list and a positive limit, the limiter
keeps, for each repository name, exactly the first `min limit size` records
of that repository's group in the pre-sorted order (conjuncts 1 to 3:
exact equality before the re-sort, and count and multiset equality after
it), and the re-sorted final output is again in the configured global sort
order (conjunct 4). -/
theorem head_limit_per_group :
    ∀ (ds : List Delivery) (limit : Int) (sortBy : String) (asc : Bool)
      (out : List Delivery),
      0 < limit →
      sortedBy (applySortLess sortBy asc) ds →
      applyHeadLimitRel ds limit sortBy asc out →
      (∀ r : String,
          (applyHeadLimitPre ds limit).filter (fun d => d.repository = r)
            = (ds.filter (fun d => d.repository = r)).take limit.toNat)
      ∧ (∀ r : String,
          (out.filter (fun d => d.repository = r)).length
            = min limit.toNat (ds.filter (fun d => d.repository = r)).length)
      ∧ (∀ r : String,
          List.Perm (out.filter (fun d => d.repository = r))
            ((ds.filter (fun d => d.repository = r)).take limit.toNat))
      ∧ sortedBy (applySortLess sortBy asc) out := by
  intro ds limit sortBy asc out hlim hsorted hrel
  rw [applyHeadLimitRel, if_neg (by omega)] at hrel
  obtain ⟨hperm, hsortOut⟩ := hrel
  have hfilterPerm : ∀ r : String,
      List.Perm (out.filter (fun d => d.repository = r))
        ((ds.filter (fun d => d.repository = r)).take limit.toNat) := by
    intro r
    have h1 := (List.Perm.filter (fun d => d.repository = r) hperm).symm
    rw [applyHeadLimitPre_filter ds limit r] at h1
    exact h1
  refine ⟨fun r => applyHeadLimitPre_filter ds limit r, ?_, hfilterPerm, hsortOut⟩
  intro r
  rw [List.Perm.length_eq (hfilterPerm r), List.length_take]

/-- The spec's limiter example: repository `a/x` contributes five records
and `b/y` two, globally sorted by timestamp descending. -/
def headDemoInput : List Delivery :=
  [{ sampleDelivery with id := 7, deliveredAt := 7 },
   { sampleDelivery with id := 6, deliveredAt := 6 },
   { sampleDelivery with id := 5, deliveredAt := 5, repository := "b/y" },
   { sampleDelivery with id := 4, deliveredAt := 4 },
   { sampleDelivery with id := 3, deliveredAt := 3 },
   { sampleDelivery with id := 2, deliveredAt := 2, repository := "b/y" },
   { sampleDelivery with id := 1, deliveredAt := 1 }]

/-- A valid final output for `headDemoInput` with limit 3: three `a/x`
records, both `b/y` records, timestamp descending. -/
def headDemoOutput : List Delivery :=
  [{ sampleDelivery with id := 7, deliveredAt := 7 },
   { sampleDelivery with id := 6, deliveredAt := 6 },
   { sampleDelivery with id := 5, deliveredAt := 5, repository := "b/y" },
   { sampleDelivery with id := 4, deliveredAt := 4 },
   { sampleDelivery with id := 2, deliveredAt := 2, repository := "b/y" }]

/-- Witness for C3 at the spec's example: with limit 3 the output holds
exactly `min 3 5` records of repository `a/x`. -/
theorem head_limit_per_group_witness :
    (headDemoOutput.filter (fun d => d.repository = "a/x")).length
      = min (3 : Int).toNat ((headDemoInput.filter (fun d => d.repository = "a/x")).length) :=
  ((head_limit_per_group headDemoInput 3 "timestamp" false headDemoOutput
      (by decide) (by decide) (by decide)).2.1) "a/x"

/-! ## Worker-pool invariants -/

/-- The items currently held by busy workers. -/
def busyItems {ι : Type} : List (Option ι) → List ι
  | [] => []
  | none :: t => busyItems t
  | some x :: t => x :: busyItems t

theorem busyItems_length_le {ι : Type} : ∀ ws : List (Option ι),
    (busyItems ws).length ≤ ws.length := by
  intro ws
  induction ws with
  | nil => exact Nat.le_refl 0
  | cons o t ih =>
    cases o with
    | none =>
      simp only [busyItems, List.length_cons]
      omega
    | some x =>
      simp only [busyItems, List.length_cons]
      omega

theorem busyCount_eq_length {ι : Type} : ∀ ws : List (Option ι),
    ws.countP (fun o => o.isSome) = (busyItems ws).length := by
  intro ws
  induction ws with
  | nil => rfl
  | cons o t ih =>
    cases o with
    | none => simpa [List.countP_cons, busyItems] using ih
    | some x => simpa [List.countP_cons, busyItems] using ih

theorem busyItems_replicate_none {ι : Type} : ∀ w : Nat,
    busyItems (List.replicate w (none : Option ι)) = [] := by
  intro w
  induction w with
  | zero => rfl
  | succ n ih => simpa [List.replicate_succ, busyItems] using ih

theorem busyItems_set_some {ι : Type} : ∀ (ws : List (Option ι)) (k : Nat) (x : ι),
    ws[k]? = some none →
    List.Perm (busyItems (ws.set k (some x))) (x :: busyItems ws) := by
  intro ws
  induction ws with
  | nil =>
    intro k x h
    simp at h
  | cons o t ih =>
    intro k x h
    cases k with
    | zero =>
      simp only [List.getElem?_cons_zero, Option.some.injEq] at h
      subst h
      simp [busyItems]
    | succ n =>
      simp only [List.getElem?_cons_succ] at h
      cases o with
      | none =>
        simpa [busyItems] using ih n x h
      | some y =>
        simp only [List.set_cons_succ, busyItems]
        refine List.Perm.trans (List.Perm.cons y (ih n x h)) ?_
        exact List.Perm.swap x y _

theorem busyItems_set_none {ι : Type} : ∀ (ws : List (Option ι)) (k : Nat) (x : ι),
    ws[k]? = some (some x) →
    List.Perm (x :: busyItems (ws.set k none)) (busyItems ws) := by
  intro ws
  induction ws with
  | nil =>
    intro k x h
    simp at h
  | cons o t ih =>
    intro k x h
    cases k with
    | zero =>
      simp only [List.getElem?_cons_zero, Option.some.injEq] at h
      subst h
      simp [busyItems]
    | succ n =>
      simp only [List.getElem?_cons_succ] at h
      cases o with
      | none =>
        simpa [busyItems] using ih n x h
      | some y =>
        simp only [List.set_cons_succ, busyItems]
        refine List.Perm.trans (List.Perm.swap y x _) ?_
        exact List.Perm.cons y (ih n x h)

theorem busyCount_zero_busyItems {ι : Type} (ws : List (Option ι))
    (h : ws.countP (fun o => o.isSome) = 0) : busyItems ws = [] := by
  have := busyCount_eq_length ws
  rw [h] at this
  exact (List.length_eq_zero.mp this.symm)

theorem exists_busy_slot {ι : Type} : ∀ ws : List (Option ι),
    ws.countP (fun o => o.isSome) ≠ 0 → ∃ (k : Nat) (x : ι), ws[k]? = some (some x) := by
  intro ws
  induction ws with
  | nil =>
    intro h
    simp at h
  | cons o t ih =>
    intro h
    cases o with
    | some x => exact ⟨0, x, by simp⟩
    | none =>
      have ht : t.countP (fun o => o.isSome) ≠ 0 := by
        simpa [List.countP_cons] using h
      obtain ⟨k, x, hk⟩ := ih ht
      exact ⟨k + 1, x, by simpa using hk⟩

/-- The pool invariant: the pending items, the items in flight, and the
finished items together are exactly the submitted items (no item dropped,
none duplicated), and the worker-slot count never changes. -/
def poolInv {ι : Type} (items : List ι) (w : Nat) (s : PoolState ι) : Prop :=
  List.Perm (s.pending ++ (busyItems s.workers ++ s.done)) items ∧ s.workers.length = w

theorem poolInv_init {ι : Type} (items : List ι) (w : Nat) :
    poolInv items w (initState w items) := by
  constructor
  · simp [initState, busyItems_replicate_none]
  · simp [initState]

theorem poolInv_step {ι : Type} {items : List ι} {w : Nat} {s t : PoolState ι}
    (hstep : PoolStep s t) (hinv : poolInv items w s) : poolInv items w t := by
  obtain ⟨hperm, hlen⟩ := hinv
  cases hstep with
  | take x p ws d k hk =>
    have hperm' : List.Perm ((x :: p) ++ (busyItems ws ++ d)) items := hperm
    have hlen' : ws.length = w := hlen
    refine ⟨?_, ?_⟩
    · show List.Perm (p ++ (busyItems (ws.set k (some x)) ++ d)) items
      refine List.Perm.trans ?_ hperm'
      have hstep1 : List.Perm (p ++ (busyItems (ws.set k (some x)) ++ d))
          (p ++ ((x :: busyItems ws) ++ d)) :=
        List.Perm.append_left p (List.Perm.append_right d (busyItems_set_some ws k x hk))
      refine List.Perm.trans hstep1 ?_
      have hstep2 : List.Perm (p ++ (x :: (busyItems ws ++ d)))
          (x :: (p ++ (busyItems ws ++ d))) := List.perm_middle
      exact hstep2
    · show (ws.set k (some x)).length = w
      rw [List.length_set]
      exact hlen'
  | finish p ws d k x hk =>
    have hperm' : List.Perm (p ++ (busyItems ws ++ d)) items := hperm
    have hlen' : ws.length = w := hlen
    refine ⟨?_, ?_⟩
    · show List.Perm (p ++ (busyItems (ws.set k none) ++ (x :: d))) items
      refine List.Perm.trans ?_ hperm'
      have hstep1 : List.Perm (p ++ (busyItems (ws.set k none) ++ (x :: d)))
          (p ++ (x :: (busyItems (ws.set k none) ++ d))) :=
        List.Perm.append_left p List.perm_middle
      refine List.Perm.trans hstep1 ?_
      have hstep2 : List.Perm (p ++ ((x :: busyItems (ws.set k none)) ++ d))
          (p ++ (busyItems ws ++ d)) :=
        List.Perm.append_left p (List.Perm.append_right d (busyItems_set_none ws k x hk))
      exact hstep2
    · show (ws.set k none).length = w
      rw [List.length_set]
      exact hlen'

theorem reachable_inv {ι : Type} {w : Nat} {items : List ι} {s : PoolState ι}
    (h : Reachable w items s) : poolInv items w s := by
  unfold Reachable at h
  induction h with
  | refl => exact poolInv_init items w
  | tail hsteps hstep ih => exact poolInv_step hstep ih

theorem length_filter_split {ι : Type} (p : ι → Bool) (l : List ι) :
    (l.filter p).length + (l.filter (fun x => ! p x)).length = l.length := by
  induction l with
  | nil => rfl
  | cons a t ih =>
    cases h : p a <;> simp [List.filter_cons, h] <;> omega

/-- C2: the fan-out produces exactly one outcome per submitted item.  In
every drained pool state (nothing pending, nothing in flight) the finished
items are a permutation of the submitted items — so with failing subset F
there are exactly `N - sizeOf F` successes and `sizeOf F` failures, and
every item is covered exactly once — and from every reachable undrained
state another step is possible, so one item's failure never prevents the
others from being attempted or the pool from draining. -/
theorem pool_attempts_each_item_exactly_once :
    ∀ (ι ε α : Type) [DecidableEq ι] (f : ι → Except ε α) (w : Nat) (items : List ι),
      (∀ s : PoolState ι, Reachable w items s → s.pending = [] → busyCount s = 0 →
          List.Perm s.done items
          ∧ (s.done.filter (fun x => isOkB (f x))).length
              = items.length - (items.filter (fun x => ! isOkB (f x))).length
          ∧ (s.done.filter (fun x => ! isOkB (f x))).length
              = (items.filter (fun x => ! isOkB (f x))).length
          ∧ (∀ x : ι, s.done.count x = items.count x))
      ∧ (∀ s : PoolState ι, Reachable w items s → 1 ≤ w →
          ¬ (s.pending = [] ∧ busyCount s = 0) → ∃ t : PoolState ι, PoolStep s t) := by
  intro ι ε α inst f w items
  constructor
  · intro s hre hpend hbusy
    obtain ⟨hperm, hlen⟩ := reachable_inv hre
    have hbi : busyItems s.workers = [] := busyCount_zero_busyItems _ hbusy
    rw [hpend, hbi] at hperm
    have hdone : List.Perm s.done items := by simpa using hperm
    refine ⟨hdone, ?_, ?_, fun x => hdone.count_eq x⟩
    · have hok := (hdone.filter (fun x => isOkB (f x))).length_eq
      have hsplit := length_filter_split (fun x => isOkB (f x)) items
      omega
    · exact (hdone.filter (fun x => ! isOkB (f x))).length_eq
  · intro s hre hw hnf
    obtain ⟨pend, ws, d⟩ := s
    obtain ⟨hperm, hlen⟩ := reachable_inv hre
    have hlen' : ws.length = w := hlen
    by_cases hbusy : ws.countP (fun o => o.isSome) = 0
    · have hpne : pend ≠ [] := by
        intro hp
        exact hnf ⟨hp, hbusy⟩
      cases pend with
      | nil => exact absurd rfl hpne
      | cons x p =>
        have hws0 : ws[0]? = some none := by
          cases ws with
          | nil =>
            simp at hlen'
            omega
          | cons o t =>
            have ho : o = none := by
              cases o with
              | none => rfl
              | some y => simp [List.countP_cons] at hbusy
            rw [ho]
            simp
        exact ⟨_, PoolStep.take x p ws d 0 hws0⟩
    · obtain ⟨k, x, hk⟩ := exists_busy_slot ws hbusy
      exact ⟨_, PoolStep.finish pend ws d k x hk⟩

/-- Witness for C2: a one-item pool drains after a take and a finish step,
covering the item; and from the initial state a step exists. -/
theorem pool_attempts_each_item_exactly_once_witness :
    List.Perm ([0] : List Nat) [0]
    ∧ ∃ t, PoolStep (initState 1 ([0] : List Nat)) t := by
  have happly := pool_attempts_each_item_exactly_once Nat Unit Nat
    (fun n => Except.ok n) 1 [0]
  constructor
  · have step1 : PoolStep (initState 1 ([0] : List Nat)) ⟨[], [some 0], []⟩ :=
      PoolStep.take 0 [] [none] [] 0 (by simp)
    have step2 : PoolStep (⟨[], [some 0], []⟩ : PoolState Nat) ⟨[], [none], [0]⟩ :=
      PoolStep.finish [] [some 0] [] 0 0 (by simp)
    have hre : Reachable 1 ([0] : List Nat) ⟨[], [none], [0]⟩ :=
      Relation.ReflTransGen.tail (Relation.ReflTransGen.tail Relation.ReflTransGen.refl step1)
        step2
    exact (happly.1 ⟨[], [none], [0]⟩ hre rfl (by decide)).1
  · exact happly.2 (initState 1 [0]) Relation.ReflTransGen.refl (Nat.le_refl 1)
      (by intro hc; simp [initState] at hc)

/-- C9: in every reachable pool state the number of in-flight fetches is
bounded by `min cap itemCount` — with cap 10 for the discovery pool and 5
for the enrichment pool — and the worker count computed by the source is
exactly that minimum (the cap, sized down to the item count). -/
theorem pool_bounded_concurrency :
    (∀ (ι : Type) (items : List ι) (s : PoolState ι),
        Reachable (numWorkersGo discoveryMaxConcurrent items.length) items s →
        busyCount s ≤ min discoveryMaxConcurrent items.length)
    ∧ (∀ (ι : Type) (items : List ι) (s : PoolState ι),
        Reachable (numWorkersGo enrichMaxConcurrent items.length) items s →
        busyCount s ≤ min enrichMaxConcurrent items.length)
    ∧ discoveryMaxConcurrent = 10
    ∧ enrichMaxConcurrent = 5
    ∧ (∀ maxConcurrent n : Nat, numWorkersGo maxConcurrent n = min maxConcurrent n) := by
  have hmin : ∀ maxConcurrent n : Nat, numWorkersGo maxConcurrent n = min maxConcurrent n := by
    intro maxConcurrent n
    unfold numWorkersGo
    rw [Nat.min_def]
    split_ifs <;> omega
  have hbound : ∀ (ι : Type) (w : Nat) (items : List ι) (s : PoolState ι),
      Reachable w items s → busyCount s ≤ w := by
    intro ι w items s hre
    have hinv := reachable_inv hre
    calc busyCount s = (busyItems s.workers).length := busyCount_eq_length s.workers
      _ ≤ s.workers.length := busyItems_length_le s.workers
      _ = w := hinv.2
  refine ⟨?_, ?_, rfl, rfl, hmin⟩
  · intro ι items s hre
    have h := hbound ι _ items s hre
    rwa [hmin] at h
  · intro ι items s hre
    have h := hbound ι _ items s hre
    rwa [hmin] at h

/-- Witness for C9: the one-item discovery pool starts with no fetch in
flight, below the bound, and the worker-count formula gives the minimum at
concrete inputs. -/
theorem pool_bounded_concurrency_witness :
    busyCount (initState (numWorkersGo discoveryMaxConcurrent ([0] : List Nat).length) [0])
        ≤ min discoveryMaxConcurrent ([0] : List Nat).length
    ∧ numWorkersGo 10 3 = min 10 3
    ∧ numWorkersGo 5 12 = min 5 12 :=
  ⟨pool_bounded_concurrency.1 Nat [0] _ Relation.ReflTransGen.refl,
    pool_bounded_concurrency.2.2.2.2 10 3,
    pool_bounded_concurrency.2.2.2.2 5 12⟩

/-- Witness for C7: the timestamp 5 lies inclusively between the bounds 3
and 7. -/
theorem in_range_inclusive_bounds_witness :
    InRange 5 (some 3) (some 7) = true :=
  in_range_inclusive_bounds.2.2.2.1 3 7 5 (by decide) (by decide)
